import Mathlib

/-!
# The event loop of `src/main.cpp`

`class Loop` is a queue of closures (`m_events`) guarded by `m_mutex`, a
condition variable `m_cv` and a flag `m_exec`.  One thread runs `Loop::exec`,
once, as `main` does; any number of threads call `add`, `quit` and
`processEvents`.

The embedding is a labelled transition system.  A state `Sys` holds the
members of `Loop`, the control point of every thread that is inside a member
function, and history variables (`added`, `removed`, `executed`, `drained`,
`lastPop`) that the program does not read.  An `Action` picks the thread that
moves next, `step` is its move, `none` when the thread cannot move (it waits
for the mutex or for the condition variable, or it has ended).  A schedule is
a list of actions, `run` plays it.

Granularity.  A block guarded by a `std::lock_guard` that neither blocks nor
calls a task is one step, enabled when the mutex is free (`add`, the locked
half of `quit`, the pop of `exec`, the predicate test of `m_cv.wait`).
`processEvents` calls tasks while it holds the mutex, so it keeps the mutex
over several steps and `m_mutex` records that.  Loads and stores of the
atomic `m_exec` are steps of their own.  A task is an abstract value of type
`τ`; running it takes a start and a finish step and either ends normally or
raises a fault `raises t = some e`.  What a task does to the loop it runs on
(a task may call `add` or `quit`) shows up as `add` and `quit` steps between
its start and its finish.  A task that `processEvents` runs cannot take the
mutex, which its caller holds and which is not recursive; the locked steps
are disabled for everybody while it runs.  The steps do not record which
task makes such a call, so a `processEvents` thread may always finish its
task; the whole call `processEvents` takes the tasks that call into the loop
as the parameter `calls` and does not return when it runs one.
-/

namespace Cont

/-- Control point of the thread that runs `Loop::exec` (lines 26-47). -/
inductive ExecPc (τ ε : Type) where
  /-- The call `exec()` has not been made yet. -/
  | notStarted
  /-- At the loop test `while (m_exec)` of line 29. -/
  | head
  /-- About to enter the `lock_guard` block of lines 32-39. -/
  | popping
  /-- Left the block with `runnable = true` and `event = t` (line 40). -/
  | popped (t : τ)
  /-- Inside the call `event()` of line 41. -/
  | running (t : τ)
  /-- Left the block with `runnable = false`: about to take the
  `unique_lock` of line 43 and test the predicate of line 44. -/
  | waitEnter
  /-- Blocked inside `m_cv.wait`, the mutex released. -/
  | sleeping
  /-- Unblocked by a notification or spuriously: has to take the mutex
  again and test the predicate again. -/
  | woken
  /-- The call `exec()` returned. -/
  | returned
  /-- The task `t` raised `e` inside `event()`; nothing in `exec` catches
  it, so the call ended with `e`. -/
  | faulted (t : τ) (e : ε)
  deriving DecidableEq, Repr

/-- Control point of a thread that calls `Loop::processEvents`
(lines 48-55). -/
inductive DrainPc (τ ε : Type) where
  /-- Outside `processEvents`. -/
  | idle
  /-- Holds the `lock_guard` of line 50, at the loop test of line 51. -/
  | looping
  /-- Inside the call `m_events.front()()` of line 52, the mutex held. -/
  | running (t : τ)
  /-- A task raised `e`: the call ended with `e`, the `lock_guard` released
  the mutex, `pop_front` of line 53 was not reached. -/
  | thrown (e : ε)
  deriving DecidableEq, Repr

/-- State of a `Loop` together with the threads that use it. -/
structure Sys (τ ε : Type) where
  /-- Member `m_exec` (line 72). -/
  m_exec : Bool
  /-- Member `m_mutex` (line 73): `true` while a thread inside
  `processEvents` owns it.  Every other critical section is one step. -/
  m_mutex : Bool
  /-- Member `m_events` (line 74), front first. -/
  m_events : List τ
  /-- The thread inside `exec`.  Member `m_cv` (line 75) has this thread as
  its only possible waiter: it waits exactly when `consumer = sleeping`. -/
  consumer : ExecPc τ ε
  /-- The threads that call `processEvents`, by index. -/
  drainers : List (DrainPc τ ε)
  /-- Number of `quit` calls that are past line 58 and not yet past
  lines 59-61. -/
  quitting : Nat
  /-- History: the tasks pushed by `add`, in the order of the pushes. -/
  added : List τ
  /-- History: the tasks taken out of `m_events`, in the order taken. -/
  removed : List τ
  /-- History: the tasks whose call from `exec` ended normally. -/
  executed : List τ
  /-- History: the tasks whose call from `processEvents` ended normally. -/
  drained : List τ
  /-- History: what the latest pass of `exec` through lines 32-39 found,
  `some true` for an empty queue, `some false` for a task, `none` when
  there was no pass yet. -/
  lastPop : Option Bool
  deriving DecidableEq, Repr

/-- The scheduler's choices. -/
inductive Action (τ : Type) where
  /-- A whole call `add(t)` (lines 64-70): one critical section. -/
  | add (t : τ)
  /-- Line 58 of a call of `quit`. -/
  | quitStore
  /-- Lines 59-61 of a call of `quit` that is past line 58. -/
  | quitNotify
  /-- The next step of the thread inside `exec`. -/
  | exec
  /-- A spurious wake-up of the thread blocked in `m_cv.wait`. -/
  | spurious
  /-- The next step of thread `i` inside `processEvents`. -/
  | drain (i : Nat)
  deriving DecidableEq, Repr

section Operations

variable {τ ε : Type}

/-- Effect of `m_cv.notify_one()`: the waiter, if there is one, is
unblocked; without a waiter nothing happens and nothing is remembered. -/
def notify_one (s : Sys τ ε) : Sys τ ε :=
  match s.consumer with
  | .sleeping => { s with consumer := .woken }
  | _ => s

/-- The predicate of line 44, `!m_events.empty() || !m_exec`. -/
def waitPred (s : Sys τ ε) : Bool :=
  !s.m_events.isEmpty || !s.m_exec

/-- A call `Loop::add` (lines 64-70); `none` while the mutex is taken. -/
def add (t : τ) (s : Sys τ ε) : Option (Sys τ ε) :=
  if s.m_mutex then none
  else
    let s1 := { s with m_events := s.m_events ++ [t], added := s.added ++ [t] }
    some (if s1.m_events.length = 1 then notify_one s1 else s1)

/-- Line 58 of `Loop::quit`: the store `m_exec = false`, made without the
mutex. -/
def quitStore (s : Sys τ ε) : Sys τ ε :=
  { s with m_exec := false, quitting := s.quitting + 1 }

/-- Lines 59-61 of `Loop::quit`; `none` when no call is past line 58 or
while the mutex is taken. -/
def quitNotify (s : Sys τ ε) : Option (Sys τ ε) :=
  if s.quitting = 0 then none
  else if s.m_mutex then none
  else
    let s1 := { s with quitting := s.quitting - 1 }
    some (if s1.m_events.isEmpty then notify_one s1 else s1)

/-- A whole call `Loop::quit` (lines 56-62) with no step of another thread
in between. -/
def quit (s : Sys τ ε) : Option (Sys τ ε) :=
  quitNotify (quitStore s)

/-- The call `quit` made `k` times in a row. -/
def quitTimes : Nat → Sys τ ε → Option (Sys τ ε)
  | 0, s => some s
  | k + 1, s => (quit s).bind (quitTimes k)

/-- One step of the thread inside `Loop::exec` (lines 26-47). -/
def execStep (raises : τ → Option ε) (s : Sys τ ε) : Option (Sys τ ε) :=
  match s.consumer with
  | .notStarted => some { s with m_exec := true, consumer := .head }
  | .head =>
    some (if s.m_exec then { s with consumer := .popping }
          else { s with consumer := .returned })
  | .popping =>
    if s.m_mutex then none
    else
      match s.m_events with
      | [] => some { s with consumer := .waitEnter, lastPop := some true }
      | t :: rest =>
        some { s with m_events := rest, consumer := .popped t,
                      removed := s.removed ++ [t], lastPop := some false }
  | .popped t => some { s with consumer := .running t }
  | .running t =>
    match raises t with
    | none => some { s with consumer := .head, executed := s.executed ++ [t] }
    | some e => some { s with consumer := .faulted t e }
  | .waitEnter =>
    if s.m_mutex then none
    else some (if waitPred s then { s with consumer := .head }
               else { s with consumer := .sleeping })
  | .woken =>
    if s.m_mutex then none
    else some (if waitPred s then { s with consumer := .head }
               else { s with consumer := .sleeping })
  | .sleeping => none
  | .returned => none
  | .faulted _ _ => none

/-- A spurious wake-up: possible only for a thread blocked in the wait. -/
def spuriousWake (s : Sys τ ε) : Option (Sys τ ε) :=
  match s.consumer with
  | .sleeping => some { s with consumer := .woken }
  | _ => none

/-- One step of thread `i` inside `Loop::processEvents` (lines 48-55). -/
def drainStep (raises : τ → Option ε) (i : Nat) (s : Sys τ ε) : Option (Sys τ ε) :=
  match s.drainers[i]? with
  | none => none
  | some .idle =>
    if s.m_mutex then none
    else some { s with m_mutex := true, drainers := s.drainers.set i .looping }
  | some .looping =>
    match s.m_events with
    | [] => some { s with m_mutex := false, drainers := s.drainers.set i .idle }
    | t :: _ => some { s with drainers := s.drainers.set i (.running t) }
  | some (.running t) =>
    match raises t with
    | none =>
      some { s with m_events := s.m_events.tail,
                    removed := s.removed ++ s.m_events.take 1,
                    drained := s.drained ++ [t],
                    drainers := s.drainers.set i .looping }
    | some e =>
      some { s with m_mutex := false, drainers := s.drainers.set i (.thrown e) }
  | some (.thrown _) => none

/-- The move of the thread an action picks. -/
def step (raises : τ → Option ε) : Action τ → Sys τ ε → Option (Sys τ ε)
  | .add t, s => add t s
  | .quitStore, s => some (quitStore s)
  | .quitNotify, s => quitNotify s
  | .exec, s => execStep raises s
  | .spurious, s => spuriousWake s
  | .drain i, s => drainStep raises i s

/-- Plays a schedule; `none` when it asks a thread to move that cannot. -/
def run (raises : τ → Option ε) : List (Action τ) → Sys τ ε → Option (Sys τ ε)
  | [], s => some s
  | a :: rest, s => (step raises a s).bind (run raises rest)

/-- A freshly constructed `Loop` (`m_exec{false}`, empty queue) with `k`
threads that may call `processEvents`; nobody is inside a member function. -/
def init (τ ε : Type) (k : Nat) : Sys τ ε :=
  { m_exec := false, m_mutex := false, m_events := [], consumer := .notStarted,
    drainers := List.replicate k .idle, quitting := 0,
    added := [], removed := [], executed := [], drained := [], lastPop := none }

/-- The body of `Loop::processEvents` after line 50, for a queue that holds
`q`: lines 51-54, then the release of the mutex.  `calls t` says that the
task `t`, when run, calls `add`, `quit` or `processEvents` of the loop that
runs it.  Inside `m_events.front()()` of line 52 such a call waits for
`m_mutex`, which the caller of `processEvents` holds and which is not
recursive: the task never ends and `processEvents` never returns, which is
the result `none`.  A task that raises `e` ends the call with `e` before
`pop_front` of line 53. -/
def drainAll (raises : τ → Option ε) (calls : τ → Bool) (i : Nat) :
    List τ → Sys τ ε → Option (Sys τ ε)
  | [], s => some { s with m_mutex := false, drainers := s.drainers.set i .idle }
  | t :: q, s =>
    if calls t then none
    else
      match raises t with
      | none =>
        drainAll raises calls i q
          { s with m_events := q, removed := s.removed ++ [t], drained := s.drained ++ [t] }
      | some e => some { s with m_mutex := false, drainers := s.drainers.set i (.thrown e) }

/-- A whole call `Loop::processEvents` (lines 48-55) by thread `i` with no
step of another thread in between.  The result is `none` when the call does
not come back: the mutex is taken, or a task it runs calls into the loop
(`drainAll`), or `i` is not a thread outside `processEvents`.  In a result
`some s1` the entry `i` of `s1.drainers` is `idle` after a normal return and
`thrown e` when the call ended with the fault `e`. -/
def processEvents (raises : τ → Option ε) (calls : τ → Bool) (i : Nat) (s : Sys τ ε) :
    Option (Sys τ ε) :=
  match s.drainers[i]? with
  | some .idle =>
    if s.m_mutex then none
    else drainAll raises calls i s.m_events { s with m_mutex := true }
  | _ => none

/-- The task the thread inside `exec` has taken out of the queue and not
finished: at most one. -/
def inFlight (s : Sys τ ε) : List τ :=
  match s.consumer with
  | .popped t => [t]
  | .running t => [t]
  | .faulted t _ => [t]
  | _ => []

/-- Whether the thread inside `exec` is inside a task. -/
def execRunning (s : Sys τ ε) : Bool :=
  match s.consumer with
  | .running _ => true
  | _ => false

/-- Whether a `processEvents` thread is inside a task. -/
def DrainPc.isRunning : DrainPc τ ε → Bool
  | .running _ => true
  | _ => false

/-- Whether a `processEvents` thread owns the mutex. -/
def DrainPc.holdsMutex : DrainPc τ ε → Bool
  | .looping => true
  | .running _ => true
  | _ => false

/-- Number of tasks that are executing in state `s`, over all threads. -/
def executing (s : Sys τ ε) : Nat :=
  (if execRunning s then 1 else 0) + s.drainers.countP DrainPc.isRunning

/-- Actions of the threads that call `processEvents`. -/
def Action.isDrain : Action τ → Bool
  | .drain _ => true
  | _ => false

/-- Actions that are a call of `add`. -/
def Action.isAdd : Action τ → Bool
  | .add _ => true
  | _ => false

/-- Actions that are line 58 of a call of `quit`. -/
def Action.isQuitStore : Action τ → Bool
  | .quitStore => true
  | _ => false

end Operations

/-! ## The harness of `main` (lines 78-111)

A task of `main` is the closure of line 87 with its captures `(id, i)`; the
`int`s stay far below any overflow, so they are natural numbers here.  Running
the task inserts the pair into `g_map`.  `std::multimap` keeps its elements
ordered by key and `insert` puts a new element after the elements with an
equal key, `equal_range` is the run of the elements with that key, between
the lower and the upper bound of the key. -/

section Harness

variable {ε : Type}

/-- The call `g_map.insert(std::make_pair(id, i))` of line 88 on a multimap
given as the list of its elements in iteration order. -/
def multimapInsert (p : Nat × Nat) : List (Nat × Nat) → List (Nat × Nat)
  | [] => [p]
  | q :: m => if p.1 < q.1 then p :: q :: m else q :: multimapInsert p m

/-- The elements `g_map.equal_range(id)` spans (line 105), in iteration
order: from the first element whose key is not less than `id` up to the first
element whose key is greater than `id`. -/
def equal_range (m : List (Nat × Nat)) (id : Nat) : List (Nat × Nat) :=
  (m.dropWhile (fun q => decide (q.1 < id))).takeWhile (fun q => decide (q.1 ≤ id))

/-- The elements of `m` with key `id`, in the order of `m`. -/
def withKey (m : List (Nat × Nat)) (id : Nat) : List (Nat × Nat) :=
  m.filter (fun q => q.1 == id)

/-- The content of `g_map` once the tasks of `log` have run, in that order,
on an empty map. -/
def mapAfter (log : List (Nat × Nat)) : List (Nat × Nat) :=
  log.foldl (fun m p => multimapInsert p m) []

/-- The content of `g_map` in state `s`: what the tasks that `exec` has
executed inserted. -/
def g_map (s : Sys (Nat × Nat) ε) : List (Nat × Nat) :=
  mapAfter s.executed

/-- The tasks producer `id` adds (lines 86-90), in the order it adds them. -/
def producer (id n : Nat) : List (Nat × Nat) :=
  (List.range n).map (fun i => (id, i))

/-- The sequence `l` of pushes is an interleaving of `p` producers with `n`
tasks each: every push is of one of the producers and the pushes of each
producer are its tasks in its order. -/
def IsInterleaving (p n : Nat) (l : List (Nat × Nat)) : Prop :=
  (∀ x ∈ l, x.1 < p) ∧ ∀ id, id < p → l.filter (fun q => q.1 == id) = producer id n

/-- The checks of lines 104-111 for `p` producers with `n` tasks each:
`distance == n` and the `n` elements from `range.first` on carry `0 .. n-1`. -/
def assertsHold (p n : Nat) (m : List (Nat × Nat)) : Bool :=
  (List.range p).all (fun id =>
    decide ((equal_range m id).length = n) &&
      (((equal_range m id).take n).map Prod.snd == List.range n))

/-- All tasks of `p` producers with `n` tasks each, producer after
producer. -/
def allTasks (p n : Nat) : List (Nat × Nat) :=
  (List.range p).flatMap (fun id => producer id n)

/-- A schedule of `main`: the producers push everything, `exec` starts and
takes the first task, `quit` is called while that task runs, `exec` finishes
the task and makes its loop test. -/
def earlyQuitSchedule (p n : Nat) : List (Action (Nat × Nat)) :=
  (allTasks p n).map Action.add ++
    [.exec, .exec, .exec, .exec, .quitStore, .quitNotify, .exec, .exec]

/-- Tasks that never raise a fault. -/
def noFault (τ ε : Type) : τ → Option ε :=
  fun _ => none

/-- Tasks that never call into the loop that runs them. -/
def noCall (τ : Type) : τ → Bool :=
  fun _ => false

/-- Tasks numbered by `Nat` of which exactly task 2 calls `add` on the loop
that runs it. -/
def callAtTwo : Nat → Bool :=
  fun t => decide (t = 2)

/-- Tasks numbered by `Nat` of which exactly task 2 raises, fault 7. -/
def faultAtTwo : Nat → Option Nat :=
  fun t => if t = 2 then some 7 else none

end Harness

/-! ## Invariants of the reachable states -/

section Invariants
variable {τ ε : Type}

/-- The mutex has an owner among the `processEvents` threads exactly when it
is taken, and then exactly one. -/
def MutexInv (s : Sys τ ε) : Prop :=
  s.drainers.countP DrainPc.holdsMutex = if s.m_mutex then 1 else 0

/-- A consumer blocked in the wait has an empty queue before it, and when
the stop flag is down a call of `quit` is still on its way to line 61. -/
def SleepInv (s : Sys τ ε) : Prop :=
  s.consumer = .sleeping → s.m_events = [] ∧ (s.m_exec = false → 0 < s.quitting)

/-- After `exec` returned the flag `m_exec` is down. -/
def ReturnInv (s : Sys τ ε) : Prop :=
  s.consumer = .returned → s.m_exec = false

/-- What `exec` logged as executed ended normally, and a fault that ended
`exec` is the fault of the task that was running. -/
def FaultInv (raises : τ → Option ε) (s : Sys τ ε) : Prop :=
  (∀ t ∈ s.executed, raises t = none) ∧
    ∀ t e, s.consumer = .faulted t e → raises t = some e

/-- With `exec` as the only consumer the mutex is free between steps and the
tasks executed, the task in flight and the queue are the tasks pushed. -/
def SoloInv (s : Sys τ ε) : Prop :=
  s.m_mutex = false ∧ s.added = s.executed ++ inFlight s ++ s.m_events

end Invariants

section MoreInvariants
variable {τ ε : Type}

/-- No `processEvents` thread is inside a task. -/
def NoDrainRunning (s : Sys τ ε) : Prop :=
  s.drainers.countP DrainPc.isRunning = 0

/-- The thread inside `exec` is in its loop with the flag `m_exec` up. -/
def LoopingInv (s : Sys τ ε) : Prop :=
  s.m_exec = true ∧ s.consumer ≠ .notStarted ∧ s.consumer ≠ .returned

end MoreInvariants

/-! ## Schedules and invariants: general facts -/

section Schedules
variable {τ ε : Type}

/-- Playing a schedule is playing its first action, then the rest. -/
theorem run_cons (raises : τ → Option ε) (a : Action τ) (rest : List (Action τ))
    (s : Sys τ ε) : run raises (a :: rest) s = (step raises a s).bind (run raises rest) :=
  rfl

/-- Playing two schedules one after the other. -/
theorem run_append (raises : τ → Option ε) (a b : List (Action τ)) (s : Sys τ ε) :
    run raises (a ++ b) s = (run raises a s).bind (run raises b) := by
  induction a generalizing s with
  | nil => simp [run]
  | cons x rest ih =>
    simp only [List.cons_append, run]
    cases h : step raises x s with
    | none => simp
    | some s1 => simp [ih]

/-- Induction over a schedule: a property that holds at the start and is kept
by every step of the kinds the schedule uses holds at the end. -/
theorem run_invariant (raises : τ → Option ε) (P : Action τ → Prop) (Inv : Sys τ ε → Prop)
    (hstep : ∀ a s s1, P a → Inv s → step raises a s = some s1 → Inv s1) :
    ∀ (acts : List (Action τ)) (s s1 : Sys τ ε), (∀ a ∈ acts, P a) → Inv s →
      run raises acts s = some s1 → Inv s1 := by
  intro acts
  induction acts with
  | nil =>
    intro s s1 _ hs h
    simp only [run, Option.some.injEq] at h
    exact h ▸ hs
  | cons x rest ih =>
    intro s s1 hP hs h
    simp only [run] at h
    cases hx : step raises x s with
    | none => simp [hx] at h
    | some s2 =>
      simp only [hx, Option.some_bind] at h
      exact ih s2 s1 (fun a ha => hP a (List.mem_cons_of_mem _ ha))
        (hstep x s s2 (hP x (List.mem_cons_self _ _)) hs hx) h

@[simp] theorem notify_one_m_exec (s : Sys τ ε) : (notify_one s).m_exec = s.m_exec := by
  unfold notify_one; split <;> rfl
@[simp] theorem notify_one_m_mutex (s : Sys τ ε) : (notify_one s).m_mutex = s.m_mutex := by
  unfold notify_one; split <;> rfl
@[simp] theorem notify_one_m_events (s : Sys τ ε) : (notify_one s).m_events = s.m_events := by
  unfold notify_one; split <;> rfl
@[simp] theorem notify_one_drainers (s : Sys τ ε) : (notify_one s).drainers = s.drainers := by
  unfold notify_one; split <;> rfl
@[simp] theorem notify_one_quitting (s : Sys τ ε) : (notify_one s).quitting = s.quitting := by
  unfold notify_one; split <;> rfl
@[simp] theorem notify_one_added (s : Sys τ ε) : (notify_one s).added = s.added := by
  unfold notify_one; split <;> rfl
@[simp] theorem notify_one_removed (s : Sys τ ε) : (notify_one s).removed = s.removed := by
  unfold notify_one; split <;> rfl
@[simp] theorem notify_one_executed (s : Sys τ ε) : (notify_one s).executed = s.executed := by
  unfold notify_one; split <;> rfl
@[simp] theorem notify_one_drained (s : Sys τ ε) : (notify_one s).drained = s.drained := by
  unfold notify_one; split <;> rfl
@[simp] theorem notify_one_lastPop (s : Sys τ ε) : (notify_one s).lastPop = s.lastPop := by
  unfold notify_one; split <;> rfl
@[simp] theorem notify_one_inFlight (s : Sys τ ε) : inFlight (notify_one s) = inFlight s := by
  unfold notify_one; split <;> simp_all [inFlight]
@[simp] theorem notify_one_execRunning (s : Sys τ ε) :
    execRunning (notify_one s) = execRunning s := by
  unfold notify_one; split <;> simp_all [execRunning]
@[simp] theorem notify_one_ne_sleeping (s : Sys τ ε) :
    ((notify_one s).consumer = .sleeping) = False := by
  unfold notify_one; split <;> simp_all
theorem notify_one_returned (s : Sys τ ε) :
    ((notify_one s).consumer = .returned) = (s.consumer = .returned) := by
  unfold notify_one; split <;> simp_all
theorem notify_one_faulted (s : Sys τ ε) (t : τ) (e : ε) :
    ((notify_one s).consumer = .faulted t e) = (s.consumer = .faulted t e) := by
  unfold notify_one; split <;> simp_all
theorem notify_one_of_not_sleeping (s : Sys τ ε) (h : s.consumer ≠ .sleeping) :
    notify_one s = s := by
  unfold notify_one; split <;> simp_all

/-- Every step keeps `SleepInv`. -/
theorem sleepInv_step (raises : τ → Option ε) (a : Action τ) (s s1 : Sys τ ε)
    (hs : SleepInv s) (h : step raises a s = some s1) : SleepInv s1 := by
  simp only [SleepInv] at hs ⊢
  cases a <;>
    simp only [step, add, quitStore, quitNotify, execStep, spuriousWake, drainStep] at h <;>
    (repeat' split at h) <;>
    simp only [Option.some.injEq, reduceCtorEq] at h <;>
    subst h <;>
    simp_all [waitPred]

/-- Every step keeps `ReturnInv`. -/
theorem returnInv_step (raises : τ → Option ε) (a : Action τ) (s s1 : Sys τ ε)
    (hs : ReturnInv s) (h : step raises a s = some s1) : ReturnInv s1 := by
  simp only [ReturnInv] at hs ⊢
  cases a <;>
    simp only [step, add, quitStore, quitNotify, execStep, spuriousWake, drainStep] at h <;>
    (repeat' split at h) <;>
    simp only [Option.some.injEq, reduceCtorEq] at h <;>
    subst h <;>
    simp_all [notify_one_returned]

/-- Every step keeps `FaultInv`. -/
theorem faultInv_step (raises : τ → Option ε) (a : Action τ) (s s1 : Sys τ ε)
    (hs : FaultInv raises s) (h : step raises a s = some s1) : FaultInv raises s1 := by
  simp only [FaultInv] at hs ⊢
  cases a <;>
    simp only [step, add, quitStore, quitNotify, execStep, spuriousWake, drainStep] at h <;>
    (repeat' split at h) <;>
    simp only [Option.some.injEq, reduceCtorEq] at h <;>
    subst h <;>
    (try simp_all [notify_one_faulted]
     try (rintro x (hx | rfl) <;> first | exact hs x hx | assumption))

/-- Every step of a thread other than a `processEvents` thread keeps
`SoloInv`. -/
theorem soloInv_step (raises : τ → Option ε) (a : Action τ) (s s1 : Sys τ ε)
    (ha : a.isDrain = false) (hs : SoloInv s) (h : step raises a s = some s1) :
    SoloInv s1 := by
  simp only [SoloInv] at hs ⊢
  cases a <;>
    simp only [step, add, quitStore, quitNotify, execStep, spuriousWake, drainStep] at h <;>
    (repeat' split at h) <;>
    simp only [Option.some.injEq, reduceCtorEq] at h <;>
    subst h <;>
    (try simp_all [Action.isDrain]) <;>
    (try simp_all [inFlight])

end Schedules

section MutexLemmas
variable {τ ε : Type}

/-- Counting after one element of a list was replaced. -/
theorem countP_set_of_getElem? {α : Type} (p : α → Bool) (a b : α) :
    ∀ (l : List α) (i : Nat), l[i]? = some b →
      (l.set i a).countP p + (if p b then 1 else 0) = l.countP p + (if p a then 1 else 0)
  | [], i, h => by simp at h
  | x :: l, 0, h => by
    simp only [List.getElem?_cons_zero, Option.some.injEq] at h
    subst h
    simp only [List.set_cons_zero, List.countP_cons]
    omega
  | x :: l, i + 1, h => by
    simp only [List.getElem?_cons_succ] at h
    have ih := countP_set_of_getElem? p a b l i h
    simp only [List.set_cons_succ, List.countP_cons]
    omega

/-- Every step keeps `MutexInv`: the mutex is taken and released by the
thread that owns it. -/
theorem mutexInv_step (raises : τ → Option ε) (a : Action τ) (s s1 : Sys τ ε)
    (hs : MutexInv s) (h : step raises a s = some s1) : MutexInv s1 := by
  simp only [MutexInv] at hs ⊢
  cases a with
  | drain i =>
    simp only [step, drainStep] at h
    split at h
    · simp at h
    · rename_i hi
      have hc := countP_set_of_getElem? (DrainPc.holdsMutex (τ := τ) (ε := ε)) .looping _ _ i hi
      split at h
      · simp at h
      · simp only [Option.some.injEq] at h
        subst h
        simp_all [DrainPc.holdsMutex]
    · rename_i hi
      split at h
      · have hc := countP_set_of_getElem? (DrainPc.holdsMutex (τ := τ) (ε := ε)) .idle _ _ i hi
        simp only [Option.some.injEq] at h
        subst h
        simp only [DrainPc.holdsMutex, Bool.false_eq_true, if_false, if_true] at hc
        cases hm : s.m_mutex <;>
          simp only [hm, Bool.false_eq_true, if_false, if_true] at hs ⊢ <;> omega
      · rename_i t rest hq
        have hc := countP_set_of_getElem? (DrainPc.holdsMutex (τ := τ) (ε := ε)) (.running t) _ _ i hi
        simp only [Option.some.injEq] at h
        subst h
        simp_all [DrainPc.holdsMutex]
    · rename_i t hi
      split at h
      · have hc := countP_set_of_getElem? (DrainPc.holdsMutex (τ := τ) (ε := ε)) .looping _ _ i hi
        simp only [Option.some.injEq] at h
        subst h
        simp_all [DrainPc.holdsMutex]
      · rename_i e he
        have hc := countP_set_of_getElem? (DrainPc.holdsMutex (τ := τ) (ε := ε)) (.thrown e) _ _ i hi
        simp only [Option.some.injEq] at h
        subst h
        simp only [DrainPc.holdsMutex, Bool.false_eq_true, if_false, if_true] at hc
        cases hm : s.m_mutex <;>
          simp only [hm, Bool.false_eq_true, if_false, if_true] at hs ⊢ <;> omega
    · simp at h
  | _ =>
    simp only [step, add, quitStore, quitNotify, execStep, spuriousWake] at h
    (repeat' split at h) <;>
    simp only [Option.some.injEq, reduceCtorEq] at h <;>
    subst h <;>
    simp_all

/-- A `processEvents` thread inside a task owns the mutex. -/
theorem countP_isRunning_le (l : List (DrainPc τ ε)) :
    l.countP DrainPc.isRunning ≤ l.countP DrainPc.holdsMutex := by
  induction l with
  | nil => simp
  | cons x l ih =>
    simp only [List.countP_cons]
    cases x <;> simp [DrainPc.isRunning, DrainPc.holdsMutex] <;> omega

end MutexLemmas

section Reach
variable {τ ε : Type}

/-- `MutexInv` holds in every reachable state. -/
theorem reach_mutexInv (raises : τ → Option ε) (k : Nat) (acts : List (Action τ))
    (s : Sys τ ε) (h : run raises acts (init τ ε k) = some s) : MutexInv s :=
  run_invariant raises (fun _ => True) MutexInv
    (fun a s s1 _ hs hst => mutexInv_step raises a s s1 hs hst)
    acts _ s (fun _ _ => trivial)
    (by simp [MutexInv, init, List.countP_replicate, DrainPc.holdsMutex]) h

/-- `SleepInv` holds in every reachable state. -/
theorem reach_sleepInv (raises : τ → Option ε) (k : Nat) (acts : List (Action τ))
    (s : Sys τ ε) (h : run raises acts (init τ ε k) = some s) : SleepInv s :=
  run_invariant raises (fun _ => True) SleepInv
    (fun a s s1 _ hs hst => sleepInv_step raises a s s1 hs hst)
    acts _ s (fun _ _ => trivial) (by simp [SleepInv, init]) h

/-- `ReturnInv` holds in every reachable state. -/
theorem reach_returnInv (raises : τ → Option ε) (k : Nat) (acts : List (Action τ))
    (s : Sys τ ε) (h : run raises acts (init τ ε k) = some s) : ReturnInv s :=
  run_invariant raises (fun _ => True) ReturnInv
    (fun a s s1 _ hs hst => returnInv_step raises a s s1 hs hst)
    acts _ s (fun _ _ => trivial) (by simp [ReturnInv, init]) h

/-- `FaultInv` holds in every reachable state. -/
theorem reach_faultInv (raises : τ → Option ε) (k : Nat) (acts : List (Action τ))
    (s : Sys τ ε) (h : run raises acts (init τ ε k) = some s) : FaultInv raises s :=
  run_invariant raises (fun _ => True) (FaultInv raises)
    (fun a s s1 _ hs hst => faultInv_step raises a s s1 hs hst)
    acts _ s (fun _ _ => trivial) (by simp [FaultInv, init]) h

/-- `SoloInv` holds in every state reachable without `processEvents`. -/
theorem reach_soloInv (raises : τ → Option ε) (k : Nat) (acts : List (Action τ))
    (s : Sys τ ε) (hnd : ∀ a ∈ acts, a.isDrain = false)
    (h : run raises acts (init τ ε k) = some s) : SoloInv s :=
  run_invariant raises (fun a => a.isDrain = false) SoloInv
    (fun a s s1 ha hs hst => soloInv_step raises a s s1 ha hs hst)
    acts _ s hnd (by simp [SoloInv, init, inFlight]) h

end Reach

/-! ## The order each consumer keeps -/

section ConsumerOrder
variable {τ ε : Type}

end ConsumerOrder

/-! ## Order and loss of tasks, exit of `exec` (C3, C1, C2) -/

section OrderAndExit
variable {τ ε : Type}

/-- C1, the claim refuted.  `exec` starts, tasks 1 and 2 are pushed, `exec`
takes task 1 and runs it, `quit` is called while task 2 is queued, task 1
ends: `exec` returns at its next loop test although task 2 was pushed before
and is still in the queue, never executed. -/
theorem no_loss_counterexample :
    (run (noFault Nat Nat)
        [.exec, .add 1, .add 2, .exec, .exec, .exec, .quitStore, .quitNotify, .exec, .exec]
        (init Nat Nat 0)).map (fun s => (s.consumer, s.added, s.executed, s.m_events))
      = some (.returned, [1, 2], [1], [2]) := by
  decide

/-- C1 as amended.  For every sequence of `add` calls and every point at
which `quit` is called, no task is lost or run twice while `exec` is the
consumer: at every instant the tasks executed, the task in flight and the
queue are, in this order, exactly the tasks pushed.  So when `exec` has
returned every task pushed so far is either executed, exactly once, or still
in the queue; all of them are executed exactly when the queue is empty. -/
theorem no_loss_amended (raises : τ → Option ε) (k : Nat) (acts : List (Action τ))
    (s : Sys τ ε) (hnd : ∀ a ∈ acts, a.isDrain = false)
    (hrun : run raises acts (init τ ε k) = some s) :
    s.executed ++ inFlight s ++ s.m_events = s.added ∧
    (s.consumer = .returned →
      s.executed ++ s.m_events = s.added ∧ (s.m_events = [] ↔ s.executed = s.added)) := by
  have hs := (reach_soloInv raises k acts s hnd hrun).2
  refine ⟨hs.symm, ?_⟩
  intro hret
  have hf : inFlight s = [] := by simp [inFlight, hret]
  rw [hf, List.append_nil] at hs
  refine ⟨hs.symm, ?_⟩
  constructor
  · intro he
    rw [hs, he, List.append_nil]
  · intro he
    rw [hs] at he
    exact (List.self_eq_append_right.mp he)

/-- C1 as amended, at the schedule of the counterexample: task 1 is
executed, task 2 is still queued, none is lost and none is run twice. -/
theorem no_loss_amended_witness :
    ∃ s : Sys Nat Nat,
      run (noFault Nat Nat)
        [.exec, .add 1, .add 2, .exec, .exec, .exec, .quitStore, .quitNotify, .exec, .exec]
        (init Nat Nat 0) = some s ∧
      s.consumer = .returned ∧ s.executed = [1] ∧ s.m_events = [2] ∧
      s.executed ++ s.m_events = s.added :=
  ⟨_, rfl, rfl, rfl, rfl,
    ((no_loss_amended (noFault Nat Nat) 0
      [.exec, .add 1, .add 2, .exec, .exec, .exec, .quitStore, .quitNotify, .exec, .exec]
      _ (by decide) rfl).2 rfl).1⟩

/-- C2, the claim refuted.  Tasks 5 and 6 are queued, `exec` takes task 5
and runs it, `quit` stores the flag while task 5 runs: `exec` returns at its
next loop test.  Its latest pass through lines 32-39 found a task, not an
empty queue, and task 6 is still queued.  Second schedule: `quit` stores the
flag between line 28 and the first loop test, `exec` returns without any
pass through lines 32-39. -/
theorem exit_condition_counterexample :
    (run (noFault Nat Nat)
        [.add 5, .add 6, .exec, .exec, .exec, .exec, .quitStore, .exec, .exec]
        (init Nat Nat 0)).map (fun s => (s.consumer, s.lastPop, s.m_events, s.m_exec))
      = some (.returned, some false, [6], false) ∧
    (run (noFault Nat Nat) [.add 5, .exec, .quitStore, .exec]
        (init Nat Nat 0)).map (fun s => (s.consumer, s.lastPop, s.m_events, s.m_exec))
      = some (.returned, none, [5], false) := by
  decide

/-- C2 as amended.  `exec` leaves its loop only at the loop test of line 29
and only when that test reads `m_exec` as false: a step that makes `exec`
return is a step of `exec` from the loop test with the flag down, and it
changes nothing else; once `exec` has returned the flag is down.  The test
does not look at the queue: from the loop test with the flag down `exec`
returns whatever the queue holds. -/
theorem exit_condition_amended (raises : τ → Option ε) :
    (∀ (k : Nat) (acts : List (Action τ)) (s : Sys τ ε),
      run raises acts (init τ ε k) = some s → s.consumer = .returned → s.m_exec = false) ∧
    (∀ (a : Action τ) (s s1 : Sys τ ε), step raises a s = some s1 →
      s1.consumer = .returned → s.consumer ≠ .returned →
        a = .exec ∧ s.consumer = .head ∧ s.m_exec = false ∧
          s1 = { s with consumer := .returned }) ∧
    (∀ (s : Sys τ ε), s.consumer = .head → s.m_exec = false →
      step raises .exec s = some { s with consumer := .returned }) := by
  refine ⟨?_, ?_, ?_⟩
  · intro k acts s h hret
    exact reach_returnInv raises k acts s h hret
  · intro a s s1 h hret hne
    cases a <;>
      simp only [step, add, quitStore, quitNotify, execStep, spuriousWake, drainStep] at h <;>
      (repeat' split at h) <;>
      simp only [Option.some.injEq, reduceCtorEq] at h <;>
      subst h <;>
      simp_all [notify_one_returned]
  · intro s hc hm
    simp [step, execStep, hc, hm]

/-- C2 as amended, at the first schedule of the counterexample: its last
step is the loop test of `exec` with the flag down and task 6 queued, and
the flag is down in the state `exec` returns in. -/
theorem exit_condition_amended_witness :
    ∃ s0 s : Sys Nat Nat,
      run (noFault Nat Nat)
        [.add 5, .add 6, .exec, .exec, .exec, .exec, .quitStore, .exec]
        (init Nat Nat 0) = some s0 ∧
      step (noFault Nat Nat) .exec s0 = some s ∧
      s.consumer = .returned ∧ s.m_events = [6] ∧
      s.m_exec = false ∧
      (s0.consumer = .head ∧ s0.m_exec = false) :=
  ⟨_, _, rfl, rfl, rfl, rfl,
    (exit_condition_amended (noFault Nat Nat)).1 0
      [.add 5, .add 6, .exec, .exec, .exec, .exec, .quitStore, .exec, .exec] _ rfl rfl,
    let r := (exit_condition_amended (noFault Nat Nat)).2.1 .exec _ _
      (by rfl) (by rfl) (by decide)
    ⟨r.2.1, r.2.2.1⟩⟩

end OrderAndExit

/-! ## `processEvents` and `quit` as whole calls (C5, C6) -/

section WholeCalls
variable {τ ε : Type}

/-- Writing to a list the element it holds changes nothing. -/
theorem set_of_getElem? {α : Type} (a : α) :
    ∀ (l : List α) (i : Nat), l[i]? = some a → l.set i a = l
  | [], _, h => by simp at h
  | x :: l, 0, h => by
    simp only [List.getElem?_cons_zero, Option.some.injEq] at h
    simp [h]
  | x :: l, i + 1, h => by
    simp only [List.getElem?_cons_succ] at h
    simp [set_of_getElem? a l i h]

/-- The loop of `processEvents` on tasks that end normally and do not call
into the loop. -/
theorem drainAll_normal (raises : τ → Option ε) (calls : τ → Bool) (i : Nat) :
    ∀ (q : List τ) (s : Sys τ ε), s.m_events = q → (∀ t ∈ q, raises t = none) →
      (∀ t ∈ q, calls t = false) →
      drainAll raises calls i q s =
        some { s with m_mutex := false, m_events := [], drainers := s.drainers.set i .idle,
                      removed := s.removed ++ q, drained := s.drained ++ q }
  | [], s, hq, _, _ => by
    simp [drainAll, ← hq]
  | t :: q, s, hq, hn, hc => by
    have ht : raises t = none := hn t (List.mem_cons_self _ _)
    have hct : calls t = false := hc t (List.mem_cons_self _ _)
    simp only [drainAll, ht, hct, Bool.false_eq_true, if_false]
    rw [drainAll_normal raises calls i q
      { s with m_events := q, removed := s.removed ++ [t], drained := s.drained ++ [t] }
      rfl (fun x hx => hn x (List.mem_cons_of_mem _ hx))
      (fun x hx => hc x (List.mem_cons_of_mem _ hx))]
    simp

/-- An index with an element is within the list. -/
theorem lt_length_of_getElem? {α : Type} (l : List α) (i : Nat) (a : α)
    (h : l[i]? = some a) : i < l.length := by
  rcases Nat.lt_or_ge i l.length with h1 | h1
  · exact h1
  · rw [List.getElem?_eq_none h1] at h
    simp at h

/-- Line 50: the thread takes the free mutex. -/
theorem drainStep_acquire (raises : τ → Option ε) (i : Nat) (s : Sys τ ε)
    (hi : s.drainers[i]? = some .idle) (hm : s.m_mutex = false) :
    drainStep raises i s =
      some { s with m_mutex := true, drainers := s.drainers.set i .looping } := by
  simp [drainStep, hi, hm]

/-- Line 51 on an empty queue: the call returns and releases the mutex. -/
theorem drainStep_exit (raises : τ → Option ε) (i : Nat) (s : Sys τ ε)
    (hi : s.drainers[i]? = some .looping) (hq : s.m_events = []) :
    drainStep raises i s =
      some { s with m_mutex := false, drainers := s.drainers.set i .idle } := by
  simp [drainStep, hi, hq]

/-- Line 52: the thread calls the task at the front. -/
theorem drainStep_start (raises : τ → Option ε) (i : Nat) (s : Sys τ ε) (t : τ) (q : List τ)
    (hi : s.drainers[i]? = some .looping) (hq : s.m_events = t :: q) :
    drainStep raises i s = some { s with drainers := s.drainers.set i (.running t) } := by
  simp [drainStep, hi, hq]

/-- Line 53 after a task that ended normally: the front is removed. -/
theorem drainStep_finish (raises : τ → Option ε) (i : Nat) (s : Sys τ ε) (t : τ)
    (hi : s.drainers[i]? = some (.running t)) (ht : raises t = none) :
    drainStep raises i s =
      some { s with m_events := s.m_events.tail, removed := s.removed ++ s.m_events.take 1,
                    drained := s.drained ++ [t], drainers := s.drainers.set i .looping } := by
  simp [drainStep, hi, ht]

/-- The steps of a `processEvents` thread from the loop test on, with no step
of another thread in between, are the loop `drainAll` when the tasks end
normally and do not call into the loop. -/
theorem run_drain_loop (raises : τ → Option ε) (calls : τ → Bool) (i : Nat) :
    ∀ (q : List τ) (s : Sys τ ε), s.m_events = q → s.drainers[i]? = some .looping →
      (∀ t ∈ q, raises t = none) → (∀ t ∈ q, calls t = false) →
      run raises (List.replicate (2 * q.length + 1) (.drain i)) s =
        drainAll raises calls i q s
  | [], s, hq, hi, _, _ => by
    simp only [List.length_nil, Nat.mul_zero, Nat.zero_add, List.replicate_one, run_cons, step,
      drainStep_exit raises i s hi hq, Option.some_bind, run, drainAll]
  | t :: q, s, hq, hi, hn, hc => by
    have ht : raises t = none := hn t (List.mem_cons_self _ _)
    have hct : calls t = false := hc t (List.mem_cons_self _ _)
    have hlen : 2 * (t :: q).length + 1 = (2 * q.length + 1) + 1 + 1 := by
      simp only [List.length_cons]; omega
    have hi2 : i < s.drainers.length := lt_length_of_getElem? _ _ _ hi
    have h1 := drainStep_start raises i s t q hi hq
    have hi3 : ({ s with drainers := s.drainers.set i (.running t) } : Sys τ ε).drainers[i]?
        = some (.running t) := by
      simp [List.getElem?_set, hi2]
    have h2 := drainStep_finish raises i _ t hi3 ht
    rw [hlen, List.replicate_succ, List.replicate_succ, run_cons, step, h1, Option.some_bind,
      run_cons, step, h2, Option.some_bind]
    simp only [List.set_set, hq, List.tail_cons, List.take_succ_cons, List.take_zero]
    rw [set_of_getElem? _ _ _ hi]
    rw [run_drain_loop raises calls i q
      { s with m_events := q, removed := s.removed ++ [t], drained := s.drained ++ [t] }
      rfl hi (fun x hx => hn x (List.mem_cons_of_mem _ hx))
      (fun x hx => hc x (List.mem_cons_of_mem _ hx))]
    simp only [drainAll, ht, hct, Bool.false_eq_true, if_false]

/-- While the mutex is taken, a step of a thread other than a `processEvents`
thread touches neither the queue nor the mutex nor the drain log. -/
theorem mutex_frame (raises : τ → Option ε) (a : Action τ) (x x1 : Sys τ ε)
    (hx : x.m_mutex = true) (ha : a.isDrain = false) (h : step raises a x = some x1) :
    x1.m_events = x.m_events ∧ x1.m_mutex = true ∧ x1.drainers = x.drainers ∧
      x1.drained = x.drained := by
  cases a <;>
    simp only [step, add, quitStore, quitNotify, execStep, spuriousWake, drainStep] at h <;>
    (repeat' split at h) <;>
    simp only [Option.some.injEq, reduceCtorEq] at h <;>
    subst h <;>
    simp_all [Action.isDrain]

/-- C5, the claim refuted.  Tasks 1, 2, 3 are queued, the mutex is free.
When task 2 raises fault 7, the call of `processEvents` executes task 1 and
ends with fault 7: tasks 2 and 3 are still queued, task 3 was not executed;
the five steps of the thread give the same state.  When task 2 calls `add`
on the loop, the call never returns, although the mutex was free and the
thread was outside `processEvents` when it was made. -/
theorem drain_complete_counterexample :
    ((run faultAtTwo [.add 1, .add 2, .add 3] (init Nat Nat 1)).bind
        (processEvents faultAtTwo (noCall Nat) 0)).map
        (fun x => (x.m_events, x.drained, x.drainers, x.m_mutex))
      = some ([2, 3], [1], [.thrown 7], false) ∧
    (run faultAtTwo
        [.add 1, .add 2, .add 3, .drain 0, .drain 0, .drain 0, .drain 0, .drain 0]
        (init Nat Nat 1)).map (fun x => (x.m_events, x.drained, x.drainers, x.m_mutex))
      = some ([2, 3], [1], [.thrown 7], false) ∧
    (run (noFault Nat Nat) [.add 1, .add 2, .add 3] (init Nat Nat 1)).map
        (fun x => (x.m_events, x.m_mutex, x.drainers))
      = some ([1, 2, 3], false, [.idle]) ∧
    (run (noFault Nat Nat) [.add 1, .add 2, .add 3] (init Nat Nat 1)).bind
        (processEvents (noFault Nat Nat) callAtTwo 0)
      = none :=
  ⟨rfl, rfl, rfl, rfl⟩

/-- C5 as amended.  A call of `processEvents` on a free mutex with
`t1 .. tn` in the queue, tasks that end normally and do not call `add`,
`quit` or `processEvents` of the loop, returns: it has executed `t1 .. tn`,
each once and in this order, the queue is empty, the mutex is free again,
and nothing else changed: the stop flag is as it was and the thread inside
`exec` is where it was (the call has no wait and touches no condition
variable).  The call is `2 n + 2` steps of its thread, and while it holds
the mutex no step of another thread changes the queue, the owner of the
mutex or the log of the tasks drained. -/
theorem drain_complete_amended (raises : τ → Option ε) (calls : τ → Bool) (i : Nat)
    (s : Sys τ ε) (hi : s.drainers[i]? = some .idle) (hm : s.m_mutex = false)
    (hq : ∀ t ∈ s.m_events, raises t = none) (hc : ∀ t ∈ s.m_events, calls t = false) :
    processEvents raises calls i s =
      some { s with m_events := [], removed := s.removed ++ s.m_events,
                    drained := s.drained ++ s.m_events } ∧
    run raises (List.replicate (2 * s.m_events.length + 2) (.drain i)) s =
      processEvents raises calls i s ∧
    (∀ (a : Action τ) (x x1 : Sys τ ε), x.m_mutex = true → a.isDrain = false →
      step raises a x = some x1 →
        x1.m_events = x.m_events ∧ x1.m_mutex = true ∧ x1.drainers = x.drainers ∧
          x1.drained = x.drained) := by
  have hi2 : i < s.drainers.length := lt_length_of_getElem? _ _ _ hi
  have hp : processEvents raises calls i s =
      drainAll raises calls i s.m_events { s with m_mutex := true } := by
    simp [processEvents, hi, hm]
  refine ⟨?_, ?_, fun a x x1 hx ha h => mutex_frame raises a x x1 hx ha h⟩
  · rw [hp, drainAll_normal raises calls i s.m_events { s with m_mutex := true } rfl hq hc]
    simp [set_of_getElem? _ _ _ hi, ← hm]
  · have hlen : 2 * s.m_events.length + 2 = (2 * s.m_events.length + 1) + 1 := rfl
    have hi3 : ({ s with m_mutex := true, drainers := s.drainers.set i .looping }
        : Sys τ ε).drainers[i]? = some .looping := by
      simp [List.getElem?_set, hi2]
    rw [hlen, List.replicate_succ, run_cons, step, drainStep_acquire raises i s hi hm,
      Option.some_bind,
      run_drain_loop raises calls i s.m_events
        { s with m_mutex := true, drainers := s.drainers.set i .looping } rfl hi3 hq hc,
      hp,
      drainAll_normal raises calls i s.m_events
        { s with m_mutex := true, drainers := s.drainers.set i .looping } rfl hq hc,
      drainAll_normal raises calls i s.m_events { s with m_mutex := true } rfl hq hc]
    simp

/-- C5 as amended, at a queue of three tasks while the consumer sleeps in its
wait with `m_exec` up: the call drains the three tasks in order and
returns. -/
theorem drain_complete_amended_witness :
    ∃ s : Sys Nat Nat,
      run (noFault Nat Nat)
        [.exec, .exec, .exec, .exec, .drain 0, .spurious, .drain 0, .add 4, .add 5, .add 6]
        (init Nat Nat 1) = some s ∧
      s.m_events = [4, 5, 6] ∧ s.m_exec = true ∧ s.consumer = .woken ∧
      processEvents (noFault Nat Nat) (noCall Nat) 0 s =
        some { s with m_events := [], removed := s.removed ++ s.m_events,
                      drained := s.drained ++ s.m_events } ∧
      (processEvents (noFault Nat Nat) (noCall Nat) 0 s).map
          (fun x => (x.m_events, x.drained, x.m_exec, x.consumer, x.m_mutex))
        = some ([], [4, 5, 6], true, .woken, false) :=
  ⟨_, rfl, rfl, rfl, rfl,
    (drain_complete_amended (noFault Nat Nat) (noCall Nat) 0 _ (by rfl) (by rfl)
      (fun _ _ => rfl) (fun _ _ => rfl)).1, rfl⟩

/-- C6 (idempotent stop).  For every state `s`: `quit` twice is `quit` once,
`quit` any `k + 1` times is `quit` once; the state a call of `quit` leaves
has the stop signal set (`m_exec` false) and the queue, the push history and
the execution history exactly as in `s`; and the call completes whenever
the mutex is free. -/
theorem quit_idempotent (s : Sys τ ε) :
    (quit s).bind quit = quit s ∧
    (∀ k, quitTimes (k + 1) s = quit s) ∧
    (∀ s1, quit s = some s1 →
      s1.m_exec = false ∧ s1.m_events = s.m_events ∧ s1.added = s.added ∧
        s1.executed = s.executed ∧ s1.removed = s.removed) ∧
    (s.m_mutex = false → (quit s).isSome = true) := by
  have hidem : ∀ s : Sys τ ε, (quit s).bind quit = quit s := by
    intro s
    simp only [quit, quitNotify, quitStore]
    by_cases hm : s.m_mutex = true
    · simp [hm]
    · simp only [Bool.not_eq_true] at hm
      simp only [hm, Nat.add_one_ne_zero, if_false, Bool.false_eq_true, Nat.add_sub_cancel,
        Option.some_bind]
      by_cases he : s.m_events.isEmpty = true
      · simp only [he, if_true, notify_one_quitting, notify_one_m_mutex, notify_one_m_events,
          Nat.add_one_ne_zero, if_false, Bool.false_eq_true, Nat.add_sub_cancel]
        congr 1
        unfold notify_one
        cases hc : s.consumer <;> simp
      · simp [he]
  have htimes : ∀ (k : Nat) (s : Sys τ ε), quitTimes (k + 1) s = quit s := by
    intro k
    induction k with
    | zero =>
      intro s
      simp only [quitTimes]
      cases quit s <;> simp [quitTimes]
    | succ k ih =>
      intro s
      have h1 : quitTimes (k + 1 + 1) s = (quit s).bind (quitTimes (k + 1)) := rfl
      have h2 : quitTimes (k + 1) = (quit : Sys τ ε → Option (Sys τ ε)) := funext ih
      rw [h1, h2, hidem s]
  refine ⟨hidem s, fun k => htimes k s, ?_, ?_⟩
  · intro s1 h
    simp only [quit, quitNotify, quitStore] at h
    (repeat' split at h) <;>
    simp only [Option.some.injEq, reduceCtorEq] at h <;>
    subst h <;>
    simp_all
  · intro hm
    simp [quit, quitNotify, quitStore, hm]

/-- C6, at the state in which the consumer sleeps in its wait after having
executed task 8: the call completes, the flag is down, the queue and the
histories are untouched, and a second call changes nothing. -/
theorem quit_idempotent_witness :
    ∃ s s1 : Sys Nat Nat,
      run (noFault Nat Nat)
        [.add 8, .exec, .exec, .exec, .exec, .exec, .exec, .exec, .exec]
        (init Nat Nat 0) = some s ∧
      s.consumer = .sleeping ∧ s.m_exec = true ∧
      quit s = some s1 ∧ quit s1 = some s1 ∧
      (s1.m_exec = false ∧ s1.m_events = s.m_events ∧ s1.added = s.added ∧
        s1.executed = s.executed ∧ s1.removed = s.removed) ∧
      (quit s).isSome = true :=
  ⟨_, _, rfl, rfl, rfl, rfl, rfl,
    (quit_idempotent _).2.2.1 _ rfl, (quit_idempotent _).2.2.2 rfl⟩

end WholeCalls

/-! ## Faults and wake-ups (C7, C8) -/

section FaultsAndWakeups
variable {τ ε : Type}

/-- Once `exec` has ended with a fault, no step changes its outcome or its
log. -/
theorem faulted_stuck (raises : τ → Option ε) (t : τ) (e : ε) (log : List τ)
    (a : Action τ) (s s1 : Sys τ ε)
    (hs : s.consumer = .faulted t e ∧ s.executed = log)
    (h : step raises a s = some s1) :
    s1.consumer = .faulted t e ∧ s1.executed = log := by
  cases a <;>
    simp only [step, add, quitStore, quitNotify, execStep, spuriousWake, drainStep] at h <;>
    (repeat' split at h) <;>
    simp only [Option.some.injEq, reduceCtorEq] at h <;>
    subst h <;>
    simp_all [notify_one_faulted]

/-- C7 (uncaught task fault).  Let `exec` be the consumer and let it be
inside a task `t` that raises the fault `e`.  Then the next step of `exec`
ends the call with exactly `e`; every task `exec` executed before ended
normally, and these tasks, then `t`, then the queue are the pushes in their
order (the tasks before `t` ran in FIFO order, those behind `t` are still
queued); and whatever happens afterwards, `exec` stays ended with `e` and
executes nothing more. -/
theorem exec_fault_propagates (raises : τ → Option ε) (k : Nat) (acts : List (Action τ))
    (s : Sys τ ε) (t : τ) (e : ε) (hnd : ∀ a ∈ acts, a.isDrain = false)
    (hrun : run raises acts (init τ ε k) = some s)
    (hc : s.consumer = .running t) (hr : raises t = some e) :
    step raises .exec s = some { s with consumer := .faulted t e } ∧
    (∀ x ∈ s.executed, raises x = none) ∧
    s.executed ++ [t] ++ s.m_events = s.added ∧
    ∀ (more : List (Action τ)) (s2 : Sys τ ε),
      run raises more { s with consumer := .faulted t e } = some s2 →
        s2.consumer = .faulted t e ∧ s2.executed = s.executed := by
  refine ⟨?_, (reach_faultInv raises k acts s hrun).1, ?_, ?_⟩
  · simp [step, execStep, hc, hr]
  · have hs := (reach_soloInv raises k acts s hnd hrun).2
    simp only [inFlight, hc] at hs
    exact hs.symm
  · intro more s2 h
    exact run_invariant raises (fun _ => True)
      (fun x => x.consumer = .faulted t e ∧ x.executed = s.executed)
      (fun a x x1 _ hx hst => faulted_stuck raises t e s.executed a x x1 hx hst)
      more { s with consumer := .faulted t e } s2 (fun _ _ => trivial) ⟨rfl, rfl⟩ h

/-- C7, at a schedule: tasks 1, 2, 3 are pushed, task 2 raises fault 7.
`exec` has executed task 1 and is inside task 2; its next step ends it with
fault 7, task 3 stays queued, and after two more pushes and a call of `quit`
the outcome of `exec` and its log are what they were. -/
theorem exec_fault_propagates_witness :
    ∃ s s2 : Sys Nat Nat,
      run faultAtTwo
        [.add 1, .add 2, .add 3, .exec, .exec, .exec, .exec, .exec, .exec, .exec, .exec]
        (init Nat Nat 0) = some s ∧
      s.consumer = .running 2 ∧ s.executed = [1] ∧ s.m_events = [3] ∧
      step faultAtTwo .exec s = some { s with consumer := .faulted 2 7 } ∧
      s.executed ++ [2] ++ s.m_events = s.added ∧
      run faultAtTwo [.add 4, .quitStore, .quitNotify, .add 5]
        { s with consumer := .faulted 2 7 } = some s2 ∧
      (s2.consumer = .faulted 2 7 ∧ s2.executed = s.executed) :=
  ⟨_, _, rfl, rfl, rfl, rfl,
    (exec_fault_propagates faultAtTwo 0
      [.add 1, .add 2, .add 3, .exec, .exec, .exec, .exec, .exec, .exec, .exec, .exec]
      _ 2 7 (by decide) rfl rfl rfl).1,
    (exec_fault_propagates faultAtTwo 0
      [.add 1, .add 2, .add 3, .exec, .exec, .exec, .exec, .exec, .exec, .exec, .exec]
      _ 2 7 (by decide) rfl rfl rfl).2.2.1,
    rfl,
    (exec_fault_propagates faultAtTwo 0
      [.add 1, .add 2, .add 3, .exec, .exec, .exec, .exec, .exec, .exec, .exec, .exec]
      _ 2 7 (by decide) rfl rfl rfl).2.2.2
      [.add 4, .quitStore, .quitNotify, .add 5] _ rfl⟩

/-- The locked half of `quit` on an empty queue wakes a sleeping consumer. -/
theorem sleeping_wake (s : Sys τ ε) (hc : s.consumer = .sleeping) (hq : 0 < s.quitting)
    (he : s.m_events = []) (hm : s.m_mutex = false) :
    quitNotify s = some { s with quitting := s.quitting - 1, consumer := .woken } := by
  have : s.quitting ≠ 0 := by omega
  simp [quitNotify, this, hm, he, notify_one, hc]

/-- C8 (no lost wake-up).  The consumer leaves the wait only through the
test of the predicate under the lock: from the entry of the wait and from a
wake-up, it goes on when the predicate `queue non-empty or stop requested`
holds and it goes (back) to sleep when the predicate fails; asleep it makes
no step of its own.  A call of `add` onto an empty queue and the locked
half of a `quit` that finds the queue empty leave no sleeping consumer.  And
in every reachable state in which the consumer sleeps with the predicate
true, the queue is empty and a call of `quit` is between its store and its
locked half, which wakes the consumer as soon as the mutex is free. -/
theorem no_lost_wakeup (raises : τ → Option ε) :
    (∀ (s s1 : Sys τ ε), s.consumer = .waitEnter ∨ s.consumer = .woken →
      step raises .exec s = some s1 →
        (waitPred s = true ∧ s1 = { s with consumer := .head }) ∨
        (waitPred s = false ∧ s1 = { s with consumer := .sleeping })) ∧
    (∀ (s : Sys τ ε), s.consumer = .sleeping → step raises .exec s = none) ∧
    (∀ (t : τ) (s s1 : Sys τ ε), s.m_events = [] → step raises (.add t) s = some s1 →
      s1.consumer ≠ .sleeping) ∧
    (∀ (s s1 : Sys τ ε), s.m_events = [] → step raises .quitNotify s = some s1 →
      s1.consumer ≠ .sleeping) ∧
    (∀ (k : Nat) (acts : List (Action τ)) (s : Sys τ ε),
      run raises acts (init τ ε k) = some s → s.consumer = .sleeping → waitPred s = true →
        s.m_events = [] ∧ 0 < s.quitting ∧
        (s.m_mutex = false →
          step raises .quitNotify s =
            some { s with quitting := s.quitting - 1, consumer := .woken })) := by
  refine ⟨?_, ?_, ?_, ?_, ?_⟩
  · intro s s1 hc h
    rcases hc with hc | hc <;>
    · simp only [step, execStep, hc] at h
      split at h
      · simp at h
      · simp only [Option.some.injEq] at h
        subst h
        cases hp : waitPred s <;> simp
  · intro s hc
    simp [step, execStep, hc]
  · intro t s s1 he h
    simp only [step, add] at h
    split at h
    · simp at h
    · simp only [Option.some.injEq] at h
      subst h
      simp [he]
  · intro s s1 he h
    simp only [step, quitNotify] at h
    (repeat' split at h) <;>
    simp only [Option.some.injEq, reduceCtorEq] at h <;>
    subst h <;>
    simp_all
  · intro k acts s h hc hp
    have hs := reach_sleepInv raises k acts s h hc
    have he := hs.1
    have hx : s.m_exec = false := by
      simp only [waitPred, he, List.isEmpty_nil, Bool.not_true, Bool.false_or,
        Bool.not_eq_true'] at hp
      exact hp
    refine ⟨he, hs.2 hx, ?_⟩
    intro hm
    exact sleeping_wake s hc (hs.2 hx) he hm

/-- C8, at a schedule: the consumer goes to sleep on an empty queue, then a
call of `quit` stores the flag.  The consumer sleeps with the predicate
true, the call of `quit` is on its way, and its locked half wakes the
consumer. -/
theorem no_lost_wakeup_witness :
    ∃ s : Sys Nat Nat,
      run (noFault Nat Nat) [.exec, .exec, .exec, .exec, .quitStore] (init Nat Nat 0)
        = some s ∧
      s.consumer = .sleeping ∧ waitPred s = true ∧
      (s.m_events = [] ∧ 0 < s.quitting) ∧
      step (noFault Nat Nat) .quitNotify s =
        some { s with quitting := s.quitting - 1, consumer := .woken } :=
  ⟨_, rfl, rfl, rfl,
    ⟨((no_lost_wakeup (noFault Nat Nat)).2.2.2.2 0
        [.exec, .exec, .exec, .exec, .quitStore] _ rfl rfl rfl).1,
     ((no_lost_wakeup (noFault Nat Nat)).2.2.2.2 0
        [.exec, .exec, .exec, .exec, .quitStore] _ rfl rfl rfl).2.1⟩,
    ((no_lost_wakeup (noFault Nat Nat)).2.2.2.2 0
        [.exec, .exec, .exec, .exec, .quitStore] _ rfl rfl rfl).2.2 rfl⟩

end FaultsAndWakeups

/-! ## Overlap of tasks, a stop before the start (C9, C10) -/

section OverlapAndStart
variable {τ ε : Type}

/-- Steps of threads other than `processEvents` threads keep
`NoDrainRunning`. -/
theorem noDrainRunning_step (raises : τ → Option ε) (a : Action τ) (s s1 : Sys τ ε)
    (ha : a.isDrain = false) (hs : NoDrainRunning s) (h : step raises a s = some s1) :
    NoDrainRunning s1 := by
  simp only [NoDrainRunning] at hs ⊢
  cases a <;>
    simp only [step, add, quitStore, quitNotify, execStep, spuriousWake, drainStep] at h <;>
    (repeat' split at h) <;>
    simp only [Option.some.injEq, reduceCtorEq] at h <;>
    subst h <;>
    simp_all [Action.isDrain]

/-- Every step but the store of `quit` keeps `LoopingInv`. -/
theorem loopingInv_step (raises : τ → Option ε) (a : Action τ) (s s1 : Sys τ ε)
    (ha : a.isQuitStore = false) (hs : LoopingInv s) (h : step raises a s = some s1) :
    LoopingInv s1 := by
  simp only [LoopingInv] at hs ⊢
  cases a <;>
    simp only [step, add, quitStore, quitNotify, execStep, spuriousWake, drainStep] at h <;>
    (repeat' split at h) <;>
    simp only [Option.some.injEq, reduceCtorEq] at h <;>
    subst h <;>
    simp_all [Action.isQuitStore, notify_one_returned] <;>
    (unfold notify_one; split <;> simp_all)

/-- C9, the claim refuted.  Tasks 1 and 2 are queued.  `exec` takes task 1,
leaves its critical section and starts the task; a second thread calls
`processEvents`, gets the mutex, which is free, and starts task 2.  Two tasks
are executing at the same instant. -/
theorem serialization_counterexample :
    (run (noFault Nat Nat)
        [.add 1, .add 2, .exec, .exec, .exec, .exec, .drain 0, .drain 0]
        (init Nat Nat 1)).map (fun s => (s.consumer, s.drainers, executing s))
      = some (.running 1, [.running 2], 2) := by
  decide

/-- C9 as amended.  In every reachable state in which one thread runs
`exec` while other threads call `add` and `quit` only, at most one task is
executing.  Calls of `processEvents` are serialised among themselves by the
mutex: in every reachable state at most one `processEvents` thread is inside
a task.  A task run by `processEvents` can overlap the task `exec` is
running, so with `processEvents` in play the bound is two. -/
theorem serialization_amended (raises : τ → Option ε) (k : Nat) (acts : List (Action τ))
    (s : Sys τ ε) (hrun : run raises acts (init τ ε k) = some s) :
    s.drainers.countP DrainPc.isRunning ≤ 1 ∧ executing s ≤ 2 ∧
    ((∀ a ∈ acts, a.isDrain = false) → executing s ≤ 1) := by
  have hm := reach_mutexInv raises k acts s hrun
  have hle := countP_isRunning_le s.drainers
  simp only [MutexInv] at hm
  have h1 : s.drainers.countP DrainPc.isRunning ≤ 1 := by
    cases hb : s.m_mutex <;> simp only [hb, Bool.false_eq_true, if_false, if_true] at hm <;> omega
  have h2 : (if execRunning s = true then 1 else 0) ≤ 1 := by
    split <;> omega
  refine ⟨h1, ?_, ?_⟩
  · simp only [executing]
    omega
  · intro hnd
    have h0 : NoDrainRunning s :=
      run_invariant raises (fun a => a.isDrain = false) NoDrainRunning
        (fun a x x1 ha hx hst => noDrainRunning_step raises a x x1 ha hx hst)
        acts _ s hnd (by simp [NoDrainRunning, init, List.countP_replicate, DrainPc.isRunning]) hrun
    simp only [NoDrainRunning] at h0
    simp only [executing, h0]
    omega

/-- C9 as amended, at the schedule of the counterexample without the steps of
`processEvents`: `exec` is inside task 1 and one task is executing. -/
theorem serialization_amended_witness :
    ∃ s : Sys Nat Nat,
      run (noFault Nat Nat) [.add 1, .add 2, .exec, .exec, .exec, .exec] (init Nat Nat 1)
        = some s ∧
      s.consumer = .running 1 ∧ executing s = 1 ∧ executing s ≤ 1 :=
  ⟨_, rfl, rfl, rfl,
    (serialization_amended (noFault Nat Nat) 1
      [.add 1, .add 2, .exec, .exec, .exec, .exec] _ rfl).2.2 (by decide)⟩

/-- C10 (a stop requested before `exec` starts is discarded).  Let `exec` not
have been entered in `s`, the mutex free.  A whole call of `quit` completes,
and the first step of `exec`, the store of line 28, leads from the state
after `quit` to the very state it leads to from `s`, with `m_exec` up; so
every schedule that starts with that step has the same outcome from both.  After that step
`exec` does not return as long as no further `quit` stores the flag, whatever
else happens; and on an empty queue `exec`, run on its own, goes to sleep in
the wait. -/
theorem stop_before_exec_discarded (raises : τ → Option ε) (s : Sys τ ε)
    (hc : s.consumer = .notStarted) (hm : s.m_mutex = false) :
    ∃ s1, quit s = some s1 ∧ s1.m_exec = false ∧
      step raises .exec s1 = some { s with m_exec := true, consumer := .head } ∧
      step raises .exec s = some { s with m_exec := true, consumer := .head } ∧
      (∀ acts, run raises (.exec :: acts) s1 = run raises (.exec :: acts) s) ∧
      (∀ acts s2, (∀ a ∈ acts, a.isQuitStore = false) →
        run raises (.exec :: acts) s1 = some s2 → s2.consumer ≠ .returned) ∧
      (s.m_events = [] →
        (run raises [.exec, .exec, .exec, .exec] s1).map (fun x => (x.consumer, x.m_exec))
          = some (.sleeping, true)) := by
  have hq : quit s = some { s with m_exec := false } := by
    simp [quit, quitNotify, quitStore, hm, notify_one, hc]
  have hstep : step raises .exec { s with m_exec := false } = step raises .exec s := by
    simp [step, execStep, hc]
  have hstep2 : step raises .exec s = some { s with m_exec := true, consumer := .head } := by
    simp [step, execStep, hc]
  refine ⟨_, hq, rfl, hstep.trans hstep2, hstep2, ?_, ?_, ?_⟩
  · intro acts
    rw [run_cons, run_cons, hstep]
  · intro acts s2 hnq h
    rw [run_cons, hstep, hstep2, Option.some_bind] at h
    exact (run_invariant raises (fun a => a.isQuitStore = false) LoopingInv
      (fun a x x1 ha hx hst => loopingInv_step raises a x x1 ha hx hst)
      acts { s with m_exec := true, consumer := .head } s2 hnq
      (by simp [LoopingInv]) h).2.2
  · intro he
    simp [run, step, execStep, hc, hm, he, waitPred]

/-- C10, at the freshly constructed loop: `quit` completes before `exec` is
entered, `exec` then starts exactly as without the `quit` and sleeps in its
wait with `m_exec` up. -/
theorem stop_before_exec_discarded_witness :
    ∃ s1, quit (init Nat Nat 0) = some s1 ∧ s1.m_exec = false ∧
      step (noFault Nat Nat) .exec s1 =
        some { init Nat Nat 0 with m_exec := true, consumer := .head } ∧
      step (noFault Nat Nat) .exec (init Nat Nat 0) =
        some { init Nat Nat 0 with m_exec := true, consumer := .head } ∧
      (run (noFault Nat Nat) [.exec, .exec, .exec, .exec] s1).map
          (fun x => (x.consumer, x.m_exec)) = some (.sleeping, true) :=
  have ⟨s1, h1, h2, h3, h4, _, _, h7⟩ :=
    stop_before_exec_discarded (noFault Nat Nat) (init Nat Nat 0) rfl rfl
  ⟨s1, h1, h2, h3, h4, h7 rfl⟩

end OverlapAndStart

/-! ## The scenario of `main` (C4) -/

section Record
variable {ε : Type}

/-- The elements after an insertion. -/
theorem mem_multimapInsert (p x : Nat × Nat) :
    ∀ m : List (Nat × Nat), x ∈ multimapInsert p m ↔ x = p ∨ x ∈ m
  | [] => by simp [multimapInsert]
  | q :: m => by
    simp only [multimapInsert]
    split
    · simp
    · simp only [List.mem_cons, mem_multimapInsert p x m]
      tauto

/-- Insertion keeps the map ordered by key. -/
theorem multimapInsert_sorted (p : Nat × Nat) :
    ∀ m : List (Nat × Nat), m.Pairwise (fun a b => a.1 ≤ b.1) →
      (multimapInsert p m).Pairwise (fun a b => a.1 ≤ b.1)
  | [], _ => by simp [multimapInsert]
  | q :: m, h => by
    simp only [multimapInsert]
    rw [List.pairwise_cons] at h
    split
    · rename_i hlt
      refine List.Pairwise.cons ?_ (List.Pairwise.cons h.1 h.2)
      intro x hx
      rcases List.mem_cons.mp hx with rfl | hx
      · omega
      · have := h.1 x hx
        omega
    · rename_i hge
      refine List.Pairwise.cons ?_ (multimapInsert_sorted p m h.2)
      intro x hx
      rcases (mem_multimapInsert p x m).mp hx with rfl | hx
      · omega
      · exact h.1 x hx

/-- In an ordered map the new element comes last among those of its key. -/
theorem withKey_multimapInsert (p : Nat × Nat) (id : Nat) :
    ∀ m : List (Nat × Nat), m.Pairwise (fun a b => a.1 ≤ b.1) →
      withKey (multimapInsert p m) id =
        withKey m id ++ (if p.1 = id then [p] else [])
  | [], _ => by
    by_cases hp : p.1 = id <;> simp [multimapInsert, withKey, hp]
  | q :: m, h => by
    rw [List.pairwise_cons] at h
    simp only [multimapInsert]
    split
    · rename_i hlt
      by_cases hp : p.1 = id
      · have hnone : withKey (q :: m) id = [] := by
          simp only [withKey, List.filter_eq_nil_iff, beq_iff_eq]
          intro x hx
          rcases List.mem_cons.mp hx with rfl | hx
          · omega
          · have := h.1 x hx
            omega
        rw [hnone]
        simp only [withKey, hp, if_true, List.nil_append] at hnone ⊢
        rw [List.filter_cons, hnone]
        simp [hp]
      · simp only [withKey, hp, if_false, List.append_nil]
        rw [List.filter_cons]
        simp [hp]
    · have ih := withKey_multimapInsert p id m h.2
      simp only [withKey] at ih ⊢
      rw [List.filter_cons, List.filter_cons, ih]
      split <;> simp

/-- From the lower bound of `id` on, the run up to the upper bound holds the
elements with key `id`. -/
theorem takeWhile_le_eq_withKey (id : Nat) :
    ∀ m : List (Nat × Nat), m.Pairwise (fun a b => a.1 ≤ b.1) → (∀ x ∈ m, id ≤ x.1) →
      m.takeWhile (fun q => decide (q.1 ≤ id)) = withKey m id
  | [], _, _ => by simp [withKey]
  | q :: m, h, hge => by
    rw [List.pairwise_cons] at h
    have hq : id ≤ q.1 := hge q (List.mem_cons_self _ _)
    by_cases hle : q.1 ≤ id
    · have heq : q.1 = id := by omega
      have ih := takeWhile_le_eq_withKey id m h.2
        (fun x hx => hge x (List.mem_cons_of_mem _ hx))
      simp only [withKey] at ih ⊢
      rw [List.takeWhile_cons, List.filter_cons, ih]
      simp [heq]
    · have hnone : withKey (q :: m) id = [] := by
        simp only [withKey, List.filter_eq_nil_iff, beq_iff_eq]
        intro x hx
        rcases List.mem_cons.mp hx with rfl | hx
        · omega
        · have := h.1 x hx
          omega
      rw [hnone, List.takeWhile_cons]
      simp [hle]

/-- In an ordered map `equal_range` spans the elements with the key. -/
theorem equal_range_eq_withKey (id : Nat) :
    ∀ m : List (Nat × Nat), m.Pairwise (fun a b => a.1 ≤ b.1) →
      equal_range m id = withKey m id
  | [], _ => by simp [equal_range, withKey]
  | q :: m, h => by
    have h0 := h
    rw [List.pairwise_cons] at h
    by_cases hlt : q.1 < id
    · have ih := equal_range_eq_withKey id m h.2
      simp only [equal_range, withKey] at ih ⊢
      rw [List.dropWhile_cons, List.filter_cons]
      have hne : ¬ q.1 = id := by omega
      simp [hlt, hne, ih]
    · have hd : (q :: m).dropWhile (fun x => decide (x.1 < id)) = q :: m := by
        rw [List.dropWhile_cons]
        simp [hlt]
      simp only [equal_range, hd]
      refine takeWhile_le_eq_withKey id (q :: m) h0 ?_
      intro x hx
      rcases List.mem_cons.mp hx with rfl | hx
      · omega
      · have := h.1 x hx
        omega

/-- One more task run is one more insertion. -/
theorem mapAfter_snoc (log : List (Nat × Nat)) (p : Nat × Nat) :
    mapAfter (log ++ [p]) = multimapInsert p (mapAfter log) := by
  simp [mapAfter, List.foldl_append]

/-- The map is ordered and holds, per key, the log entries of that key in
the order of the log. -/
theorem mapAfter_withKey (id : Nat) (log : List (Nat × Nat)) :
    (mapAfter log).Pairwise (fun a b => a.1 ≤ b.1) ∧
      withKey (mapAfter log) id = log.filter (fun q => q.1 == id) := by
  induction log using List.reverseRecOn with
  | nil => simp [mapAfter, withKey]
  | append_singleton l p ih =>
    rw [mapAfter_snoc]
    refine ⟨multimapInsert_sorted p _ ih.1, ?_⟩
    rw [withKey_multimapInsert p id _ ih.1, ih.2, List.filter_append]
    by_cases hp : p.1 = id <;> simp [hp]

/-- The map is ordered and `equal_range` yields, per key, the log entries of
that key in the order of the log. -/
theorem mapAfter_spec (id : Nat) (log : List (Nat × Nat)) :
    (mapAfter log).Pairwise (fun a b => a.1 ≤ b.1) ∧
      equal_range (mapAfter log) id = log.filter (fun q => q.1 == id) := by
  have h := mapAfter_withKey id log
  exact ⟨h.1, (equal_range_eq_withKey id _ h.1).trans h.2⟩

/-- The checks of `main` pass on the record of an interleaving of the
producers. -/
theorem assertsHold_of_interleaving (p n : Nat) (log : List (Nat × Nat))
    (h : IsInterleaving p n log) : assertsHold p n (mapAfter log) = true := by
  simp only [assertsHold, List.all_eq_true, List.mem_range, Bool.and_eq_true, decide_eq_true_eq,
    beq_iff_eq]
  intro id hid
  rw [(mapAfter_spec id log).2, h.2 id hid]
  simp [producer, Function.comp_def]

end Record

section Scenario
variable {ε : Type}

/-- A run of pushes before `exec` is entered appends them to the queue. -/
theorem run_adds {τ : Type} (raises : τ → Option ε) :
    ∀ (ts : List τ) (s : Sys τ ε), s.m_mutex = false → s.consumer = .notStarted →
      run raises (ts.map Action.add) s =
        some { s with m_events := s.m_events ++ ts, added := s.added ++ ts }
  | [], s, _, _ => by simp [run]
  | t :: ts, s, hm, hc => by
    have h1 : step raises (.add t) s =
        some { s with m_events := s.m_events ++ [t], added := s.added ++ [t] } := by
      simp only [step, add, hm, Bool.false_eq_true, if_false, Option.some.injEq]
      split
      · exact notify_one_of_not_sleeping _ (by simp [hc])
      · rfl
    rw [List.map_cons, run_cons, h1, Option.some_bind,
      run_adds raises ts
        { s with m_events := s.m_events ++ [t], added := s.added ++ [t] } hm hc]
    simp

/-- The first task pushed is `(0, 0)`. -/
theorem allTasks_cons (p n : Nat) (hp : 0 < p) (hn : 0 < n) :
    allTasks p n = (0, 0) :: (allTasks p n).tail := by
  obtain ⟨p, rfl⟩ : ∃ p1, p = p1 + 1 := ⟨p - 1, by omega⟩
  obtain ⟨n, rfl⟩ : ∃ n1, n = n1 + 1 := ⟨n - 1, by omega⟩
  simp [allTasks, producer, List.range_succ_eq_map]

/-- The outcome of `earlyQuitSchedule`: `exec` returns after task `(0, 0)`
with the other tasks queued. -/
theorem earlyQuit_run (p n : Nat) (hp : 0 < p) (hn : 0 < n) :
    (run (noFault (Nat × Nat) Nat) (earlyQuitSchedule p n) (init (Nat × Nat) Nat 0)).map
        (fun s => (s.consumer, g_map s, s.m_events))
      = some (.returned, [(0, 0)], (allTasks p n).tail) := by
  have hcons := allTasks_cons p n hp hn
  generalize (allTasks p n).tail = rest at hcons
  rw [earlyQuitSchedule, run_append,
    run_adds (noFault (Nat × Nat) Nat) (allTasks p n) (init (Nat × Nat) Nat 0) rfl rfl, hcons]
  simp [run, step, execStep, quitStore, quitNotify, init, noFault, notify_one, g_map, mapAfter,
    multimapInsert]

/-- C4 (end-to-end scenario), the program at a schedule on which it breaks
its own checks, at the sizes of `main`.  The 10 producers push their 1000
tasks each, `exec` starts, takes task `(0, 0)` and runs it, and `quit` is
called, after all the pushes, while the task runs.  `exec` returns at its
next loop test: `g_map` holds the single entry `(0, 0)`, the other 9999
tasks are still queued, and the checks of lines 104-111 fail, the first of
them `distance == 1000` of line 107 for `id = 0`. -/
theorem end_to_end_failing_run :
    (run (noFault (Nat × Nat) Nat) (earlyQuitSchedule 10 1000) (init (Nat × Nat) Nat 0)).map
        (fun s => (s.consumer, g_map s, s.m_events))
      = some (.returned, [(0, 0)], (allTasks 10 1000).tail) ∧
    assertsHold 10 1000 [(0, 0)] = false :=
  ⟨earlyQuit_run 10 1000 (by decide) (by decide), by decide⟩

/-- Once the queue is empty and nothing is pushed any more, it stays empty
and the tasks executed or in flight stay the tasks pushed. -/
theorem emptied_queue_step {τ : Type} (raises : τ → Option ε) (log : List τ)
    (a : Action τ) (s s1 : Sys τ ε) (ha : a.isDrain = false ∧ a.isAdd = false)
    (hs : s.m_mutex = false ∧ s.added = log ∧ s.executed ++ inFlight s = log ∧
      s.m_events = [])
    (h : step raises a s = some s1) :
    s1.m_mutex = false ∧ s1.added = log ∧ s1.executed ++ inFlight s1 = log ∧
      s1.m_events = [] := by
  cases a <;>
    simp only [step, add, quitStore, quitNotify, execStep, spuriousWake, drainStep] at h <;>
    (repeat' split at h) <;>
    simp only [Option.some.injEq, reduceCtorEq] at h <;>
    subst h <;>
    (try simp_all [Action.isDrain, Action.isAdd]) <;>
    (try simp_all [inFlight])

/-- The runs of `main` on which its checks pass.  Take any interleaving of
`p` producers that push `n` tasks each, tagged `(id, seq)` with `seq` rising
from 0, `exec` being the consumer, and let `quit` be requested only after
`exec` has taken every one of these tasks out of the queue, with no push
later.  Then, once `exec` has returned, the tasks executed are the tasks
pushed, the queue is empty, and the record `g_map` passes the checks of
`main`.  Nothing in `main` makes the request wait for that moment: it is
made after a fixed delay (line 95). -/
theorem checks_pass_after_drain (raises : Nat × Nat → Option ε) (p n k : Nat)
    (pre post : List (Action (Nat × Nat))) (s1 s : Sys (Nat × Nat) ε)
    (hnd : ∀ a ∈ pre ++ post, a.isDrain = false)
    (hpre : run raises pre (init (Nat × Nat) ε k) = some s1)
    (hint : IsInterleaving p n s1.added)
    (hempty : s1.m_events = [])
    (hnoadd : ∀ a ∈ post, a.isAdd = false)
    (hpost : run raises (.quitStore :: post) s1 = some s)
    (hret : s.consumer = .returned) :
    s.executed = s.added ∧ s.added = s1.added ∧ s.m_events = [] ∧
      assertsHold p n (g_map s) = true ∧
      ∀ id, id < p → (equal_range (g_map s) id).map Prod.snd = List.range n := by
  have hsolo := reach_soloInv raises k pre s1
    (fun a ha => hnd a (List.mem_append_left _ ha)) hpre
  have hlog : s1.executed ++ inFlight s1 = s1.added := by
    have h2 := hsolo.2
    rw [hempty, List.append_nil] at h2
    exact h2.symm
  have hJ := run_invariant raises (fun a => a.isDrain = false ∧ a.isAdd = false)
    (fun x => x.m_mutex = false ∧ x.added = s1.added ∧
      x.executed ++ inFlight x = s1.added ∧ x.m_events = [])
    (fun a x x1 ha hx hst => emptied_queue_step raises s1.added a x x1 ha hx hst)
    (.quitStore :: post) s1 s
    (by
      intro a ha
      rcases List.mem_cons.mp ha with rfl | ha
      · exact ⟨rfl, rfl⟩
      · exact ⟨hnd a (List.mem_append_right _ ha), hnoadd a ha⟩)
    ⟨hsolo.1, rfl, hlog, hempty⟩
    hpost
  have hex : s.executed = s1.added := by
    have h3 := hJ.2.2.1
    simp only [inFlight, hret, List.append_nil] at h3
    exact h3
  have hg : g_map s = mapAfter s1.added := by simp [g_map, hex]
  refine ⟨by rw [hex, hJ.2.1], hJ.2.1, hJ.2.2.2, ?_, ?_⟩
  · rw [hg]
    exact assertsHold_of_interleaving p n _ hint
  · intro id hid
    rw [hg, (mapAfter_spec id s1.added).2, hint.2 id hid]
    simp [producer, Function.comp_def]

/-- A run on which the checks pass, with 2 producers and 2 tasks each: the
pushes interleave, `exec` executes three tasks and is inside the fourth when
`quit` is called; the task ends, `exec` returns, and the record passes the
checks of `main`. -/
theorem checks_pass_after_drain_example :
    ∃ s1 s : Sys (Nat × Nat) Nat,
      run (noFault (Nat × Nat) Nat)
        [.exec, .exec, .add (0, 0), .add (1, 0), .exec, .exec, .exec, .add (1, 1),
          .add (0, 1), .exec, .exec, .exec, .exec, .exec, .exec, .exec, .exec, .exec,
          .exec, .exec]
        (init (Nat × Nat) Nat 0) = some s1 ∧
      s1.added = [(0, 0), (1, 0), (1, 1), (0, 1)] ∧ s1.m_events = [] ∧
      s1.consumer = .running (0, 1) ∧
      run (noFault (Nat × Nat) Nat) [.quitStore, .quitNotify, .exec, .exec] s1 = some s ∧
      s.consumer = .returned ∧
      g_map s = [(0, 0), (0, 1), (1, 0), (1, 1)] ∧
      assertsHold 2 2 (g_map s) = true :=
  ⟨_, _, rfl, rfl, rfl, rfl, rfl, rfl, rfl,
    (checks_pass_after_drain (noFault (Nat × Nat) Nat) 2 2 0
      [.exec, .exec, .add (0, 0), .add (1, 0), .exec, .exec, .exec, .add (1, 1),
        .add (0, 1), .exec, .exec, .exec, .exec, .exec, .exec, .exec, .exec, .exec,
        .exec, .exec]
      [.quitNotify, .exec, .exec] _ _
      (by decide) rfl (by unfold IsInterleaving; decide) rfl (by decide) rfl rfl).2.2.2.1⟩

end Scenario

end Cont
